import Mathlib

/-!
Verification of the bitcoin-js-wallet repository against its specification.

The repository source (`src/wallet.py`) is a small script that generates a
BIP-39 mnemonic with the bitcoinlib library, creates a testnet segwit wallet
named "richarddushime" from it, prints the first key's address and WIF, and
writes them to the file `py-wallet.json`.

The specification describes, in addition, the self-contained HD key-derivation
engine (BIP-39 mnemonic codec, seed derivation, BIP-32 key tree, address
encoding, wallet facade) that the script delegates to the bitcoinlib library.
That engine is not part of the repository source, so the definitions below in
namespace `Wallet` are modelled from the spec; the script itself is embedded
in namespace `Script` directly from `src/wallet.py`.
-/

set_option maxRecDepth 8192

namespace Wallet

/-! ### Bytes and bit strings -/

abbrev Byte := Fin 256

/-- Bytes of a pure-ASCII string (byte value of each character). -/
def strBytes (s : String) : List Byte :=
  s.data.map fun c => ⟨c.toNat % 256, Nat.mod_lt _ (by decide)⟩

/-- Little-endian bit expansion of `n`, exactly `w` bits. -/
def natToBitsLE : Nat → Nat → List Bool
  | 0, _ => []
  | w + 1, n => decide (n % 2 = 1) :: natToBitsLE w (n / 2)

/-- Value of a little-endian bit string. -/
def bitsLEToNat : List Bool → Nat
  | [] => 0
  | b :: bs => (if b then 1 else 0) + 2 * bitsLEToNat bs

/-- Big-endian (most-significant-bit first) bit expansion of `n`, `w` bits. -/
def natToBits (w n : Nat) : List Bool := (natToBitsLE w n).reverse

/-- Value of a big-endian bit string. -/
def bitsToNat (bs : List Bool) : Nat := bitsLEToNat bs.reverse

/-- Big-endian bits of one byte. -/
def byteBits (b : Byte) : List Bool := natToBits 8 b.val

/-- Bit string of a byte string, most significant bit of each byte first. -/
def bytesToBits : List Byte → List Bool
  | [] => []
  | b :: bs => byteBits b ++ bytesToBits bs

/-- Regroup a bit string into bytes (8 bits each, big-endian). -/
def bitsToBytes (bits : List Bool) : List Byte :=
  if h : bits = [] then []
  else ⟨bitsToNat (bits.take 8) % 256, Nat.mod_lt _ (by decide)⟩ :: bitsToBytes (bits.drop 8)
termination_by bits.length
decreasing_by
  simp [List.length_drop]
  exact Nat.lt_of_lt_of_le (Nat.pos_of_ne_zero (fun hl => h (List.eq_nil_of_length_eq_zero hl)))
    (Nat.le_refl _)

/-- Splitting a bit string into groups of `w` bits, each read as a number. -/
def toGroupsW (w : Nat) (bits : List Bool) : List Nat :=
  if bits = [] ∨ w = 0 then []
  else bitsToNat (bits.take w) :: toGroupsW w (bits.drop w)
termination_by bits.length
decreasing_by
  rename_i h
  push_neg at h
  have h0 : 0 < bits.length := Nat.pos_of_ne_zero (fun hl => h.1 (List.eq_nil_of_length_eq_zero hl))
  have h1 : 0 < w := Nat.pos_of_ne_zero h.2
  simp [List.length_drop]
  omega

/-- Concatenation of `w`-bit groups back into a bit string. -/
def fromGroupsW (w : Nat) : List Nat → List Bool
  | [] => []
  | g :: gs => natToBits w g ++ fromGroupsW w gs

/-! ### SHA-256

Modelled from the spec: the checksum of the mnemonic codec (spec 4.2) is the
first `bits/32` bits of the SHA-256 hash of the entropy; the repository source
delegates hashing to the bitcoinlib library, so the standard SHA-256 function
is defined here in full. -/

/-- Truncation to a 32-bit word. -/
def w32 (n : Nat) : Nat := n % 4294967296

/-- Right rotation of a 32-bit word. -/
def rotr32 (r x : Nat) : Nat := w32 ((x >>> r) ||| (x <<< (32 - r)))

def sha256K : List Nat :=
  [1116352408, 1899447441, 3049323471, 3921009573,
   961987163, 1508970993, 2453635748, 2870763221,
   3624381080, 310598401, 607225278, 1426881987,
   1925078388, 2162078206, 2614888103, 3248222580,
   3835390401, 4022224774, 264347078, 604807628,
   770255983, 1249150122, 1555081692, 1996064986,
   2554220882, 2821834349, 2952996808, 3210313671,
   3336571891, 3584528711, 113926993, 338241895,
   666307205, 773529912, 1294757372, 1396182291,
   1695183700, 1986661051, 2177026350, 2456956037,
   2730485921, 2820302411, 3259730800, 3345764771,
   3516065817, 3600352804, 4094571909, 275423344,
   430227734, 506948616, 659060556, 883997877,
   958139571, 1322822218, 1537002063, 1747873779,
   1955562222, 2024104815, 2227730452, 2361852424,
   2428436474, 2756734187, 3204031479, 3329325298]

/-- The eight working registers of SHA-2 compression. -/
structure Hash8 where
  a : Nat
  b : Nat
  c : Nat
  d : Nat
  e : Nat
  f : Nat
  g : Nat
  h : Nat

def sha256Init : Hash8 :=
  ⟨0x6a09e667, 0xbb67ae85, 0x3c6ef372, 0xa54ff53a, 0x510e527f, 0x9b05688c, 0x1f83d9ab, 0x5be0cd19⟩

/-- Big-endian value of a byte string. -/
def bytesToNatBE (bs : List Byte) : Nat := bs.foldl (fun a b => a * 256 + b.val) 0

/-- Big-endian byte expansion of `n`, exactly `len` bytes. -/
def natToBytesBE : Nat → Nat → List Byte
  | 0, _ => []
  | len + 1, n => natToBytesBE len (n / 256) ++ [⟨n % 256, Nat.mod_lt _ (by decide)⟩]

/-- Splitting a byte string into blocks of `k` bytes. -/
def toBlocks (k : Nat) (bs : List Byte) : List (List Byte) :=
  if bs = [] ∨ k = 0 then []
  else bs.take k :: toBlocks k (bs.drop k)
termination_by bs.length
decreasing_by
  rename_i h
  push_neg at h
  have h0 : 0 < bs.length := Nat.pos_of_ne_zero (fun hl => h.1 (List.eq_nil_of_length_eq_zero hl))
  have h1 : 0 < k := Nat.pos_of_ne_zero h.2
  simp [List.length_drop]
  omega

/-- 32-bit big-endian words of a byte string. -/
def words32 (bs : List Byte) : List Nat := (toBlocks 4 bs).map bytesToNatBE

/-- SHA-2 padding: a 0x80 byte, zeros, and the bit length on 8 big-endian bytes,
to a multiple of 64 bytes. -/
def sha256pad (msg : List Byte) : List Byte :=
  let L := msg.length
  let zeros := (64 - ((L + 9) % 64)) % 64
  msg ++ [⟨0x80, by decide⟩] ++ List.replicate zeros (⟨0, by decide⟩ : Byte) ++
    natToBytesBE 8 (8 * L)

def sha256s0 (x : Nat) : Nat := rotr32 7 x ^^^ rotr32 18 x ^^^ (x >>> 3)

def sha256s1 (x : Nat) : Nat := rotr32 17 x ^^^ rotr32 19 x ^^^ (x >>> 10)

def sha256S0 (x : Nat) : Nat := rotr32 2 x ^^^ rotr32 13 x ^^^ rotr32 22 x

def sha256S1 (x : Nat) : Nat := rotr32 6 x ^^^ rotr32 11 x ^^^ rotr32 25 x

def shaCh (x y z : Nat) : Nat := (x &&& y) ^^^ ((x ^^^ 0xffffffff) &&& z)

def shaMaj (x y z : Nat) : Nat := (x &&& y) ^^^ (x &&& z) ^^^ (y &&& z)

/-- Message-schedule extension of the 16 block words to 64 words. -/
def sha256Sched (ws : List Nat) : List Nat :=
  (List.range 48).foldl
    (fun acc _ =>
      acc ++ [w32 (sha256s1 (acc.getD (acc.length - 2) 0) + acc.getD (acc.length - 7) 0 +
                   sha256s0 (acc.getD (acc.length - 15) 0) + acc.getD (acc.length - 16) 0)])
    ws

def sha256Step (st : Hash8) (kw : Nat × Nat) : Hash8 :=
  let t1 := w32 (st.h + sha256S1 st.e + shaCh st.e st.f st.g + kw.1 + kw.2)
  let t2 := w32 (sha256S0 st.a + shaMaj st.a st.b st.c)
  ⟨w32 (t1 + t2), st.a, st.b, st.c, w32 (st.d + t1), st.e, st.f, st.g⟩

def sha256Block (H : Hash8) (block : List Byte) : Hash8 :=
  let ws := sha256Sched (words32 block)
  let f := (sha256K.zip ws).foldl sha256Step H
  ⟨w32 (H.a + f.a), w32 (H.b + f.b), w32 (H.c + f.c), w32 (H.d + f.d),
   w32 (H.e + f.e), w32 (H.f + f.f), w32 (H.g + f.g), w32 (H.h + f.h)⟩

/-- SHA-256 digest (32 bytes) of a byte string. -/
def sha256 (msg : List Byte) : List Byte :=
  let f := (toBlocks 64 (sha256pad msg)).foldl sha256Block sha256Init
  natToBytesBE 4 f.a ++ natToBytesBE 4 f.b ++ natToBytesBE 4 f.c ++ natToBytesBE 4 f.d ++
    natToBytesBE 4 f.e ++ natToBytesBE 4 f.f ++ natToBytesBE 4 f.g ++ natToBytesBE 4 f.h

/-! ### Error taxonomy (spec section 7) -/

inductive Err where
  | InvalidParameter
  | InvalidMnemonic
  | PrivateKeyRequired
  | NoPrivateKey
  | InvalidPath
  | UnsupportedNetwork
deriving DecidableEq, Repr

/-! ### Mnemonic codec (spec section 4.2)

Modelled from the spec: the bitcoinlib BIP-39 codec is not part of the
repository source. The spec fixes a 2048-word list but does not enumerate it;
since the list is a fixed bijection between the indices 0..2047 and words, a
mnemonic is represented here by its sequence of word indices. -/

abbrev Mnemonic := List Nat

/-- Checksum of the entropy: the first `bits/32` bits of its SHA-256 hash
(for entropy of `n` bytes this is `n/4` bits). -/
def checksumBits (entropy : List Byte) : List Bool :=
  (bytesToBits (sha256 entropy)).take (entropy.length / 4)

/-- BIP-39 encoding: append the checksum to the entropy bit string and split
into 11-bit groups, each indexing the word list. -/
def encode (entropy : List Byte) : Mnemonic :=
  toGroupsW 11 (bytesToBits entropy ++ checksumBits entropy)

/-- BIP-39 decoding: fails with InvalidMnemonic when the word count is not one
of 12, 15, 18, 21, 24, when a word index is outside the 2048-word list, or
when the embedded checksum differs from the recomputed checksum of the
extracted entropy. -/
def decode (m : Mnemonic) : Except Err (List Byte) :=
  if m.length ∈ [12, 15, 18, 21, 24] then
    if ∀ g ∈ m, g < 2048 then
      let bits := fromGroupsW 11 m
      let cs := m.length / 3
      let entropy := bitsToBytes (bits.take (32 * cs))
      if bits.drop (32 * cs) = checksumBits entropy then .ok entropy
      else .error .InvalidMnemonic
    else .error .InvalidMnemonic
  else .error .InvalidMnemonic

/-- Non-throwing validation wrapper over decode (spec 4.2). -/
def validate (m : Mnemonic) : Bool := (decode m).toBool

/-! ### SHA-512, HMAC-SHA512 and the key-stretching function (spec section 4.3)

Modelled from the spec: seed derivation applies the standardized
password-based key-stretching function (2048 iterations, HMAC-SHA512); the
repository source delegates it to the bitcoinlib library. -/

/-- Truncation to a 64-bit word. -/
def w64 (n : Nat) : Nat := n % 18446744073709551616

/-- Right rotation of a 64-bit word. -/
def rotr64 (r x : Nat) : Nat := w64 ((x >>> r) ||| (x <<< (64 - r)))

def sha512K : List Nat :=
  [4794697086780616226, 8158064640168781261, 13096744586834688815,
   16840607885511220156, 4131703408338449720, 6480981068601479193,
   10538285296894168987, 12329834152419229976, 15566598209576043074,
   1334009975649890238, 2608012711638119052, 6128411473006802146,
   8268148722764581231, 9286055187155687089, 11230858885718282805,
   13951009754708518548, 16472876342353939154, 17275323862435702243,
   1135362057144423861, 2597628984639134821, 3308224258029322869,
   5365058923640841347, 6679025012923562964, 8573033837759648693,
   10970295158949994411, 12119686244451234320, 12683024718118986047,
   13788192230050041572, 14330467153632333762, 15395433587784984357,
   489312712824947311, 1452737877330783856, 2861767655752347644,
   3322285676063803686, 5560940570517711597, 5996557281743188959,
   7280758554555802590, 8532644243296465576, 9350256976987008742,
   10552545826968843579, 11727347734174303076, 12113106623233404929,
   14000437183269869457, 14369950271660146224, 15101387698204529176,
   15463397548674623760, 17586052441742319658, 1182934255886127544,
   1847814050463011016, 2177327727835720531, 2830643537854262169,
   3796741975233480872, 4115178125766777443, 5681478168544905931,
   6601373596472566643, 7507060721942968483, 8399075790359081724,
   8693463985226723168, 9568029438360202098, 10144078919501101548,
   10430055236837252648, 11840083180663258601, 13761210420658862357,
   14299343276471374635, 14566680578165727644, 15097957966210449927,
   16922976911328602910, 17689382322260857208, 500013540394364858,
   748580250866718886, 1242879168328830382, 1977374033974150939,
   2944078676154940804, 3659926193048069267, 4368137639120453308,
   4836135668995329356, 5532061633213252278, 6448918945643986474,
   6902733635092675308, 7801388544844847127]

def sha512Init : Hash8 :=
  ⟨0x6a09e667f3bcc908, 0xbb67ae8584caa73b, 0x3c6ef372fe94f82b, 0xa54ff53a5f1d36f1,
   0x510e527fade682d1, 0x9b05688c2b3e6c1f, 0x1f83d9abfb41bd6b, 0x5be0cd19137e2179⟩

/-- 64-bit big-endian words of a byte string. -/
def words64 (bs : List Byte) : List Nat := (toBlocks 8 bs).map bytesToNatBE

/-- SHA-512 padding to a multiple of 128 bytes, bit length on 16 bytes. -/
def sha512pad (msg : List Byte) : List Byte :=
  let L := msg.length
  let zeros := (128 - ((L + 17) % 128)) % 128
  msg ++ [⟨0x80, by decide⟩] ++ List.replicate zeros (⟨0, by decide⟩ : Byte) ++
    natToBytesBE 16 (8 * L)

def sha512s0 (x : Nat) : Nat := rotr64 1 x ^^^ rotr64 8 x ^^^ (x >>> 7)

def sha512s1 (x : Nat) : Nat := rotr64 19 x ^^^ rotr64 61 x ^^^ (x >>> 6)

def sha512S0 (x : Nat) : Nat := rotr64 28 x ^^^ rotr64 34 x ^^^ rotr64 39 x

def sha512S1 (x : Nat) : Nat := rotr64 14 x ^^^ rotr64 18 x ^^^ rotr64 41 x

def shaCh64 (x y z : Nat) : Nat := (x &&& y) ^^^ ((x ^^^ 0xffffffffffffffff) &&& z)

/-- Message-schedule extension of the 16 block words to 80 words. -/
def sha512Sched (ws : List Nat) : List Nat :=
  (List.range 64).foldl
    (fun acc _ =>
      acc ++ [w64 (sha512s1 (acc.getD (acc.length - 2) 0) + acc.getD (acc.length - 7) 0 +
                   sha512s0 (acc.getD (acc.length - 15) 0) + acc.getD (acc.length - 16) 0)])
    ws

def sha512Step (st : Hash8) (kw : Nat × Nat) : Hash8 :=
  let t1 := w64 (st.h + sha512S1 st.e + shaCh64 st.e st.f st.g + kw.1 + kw.2)
  let t2 := w64 (sha512S0 st.a + shaMaj st.a st.b st.c)
  ⟨w64 (t1 + t2), st.a, st.b, st.c, w64 (st.d + t1), st.e, st.f, st.g⟩

def sha512Block (H : Hash8) (block : List Byte) : Hash8 :=
  let ws := sha512Sched (words64 block)
  let f := (sha512K.zip ws).foldl sha512Step H
  ⟨w64 (H.a + f.a), w64 (H.b + f.b), w64 (H.c + f.c), w64 (H.d + f.d),
   w64 (H.e + f.e), w64 (H.f + f.f), w64 (H.g + f.g), w64 (H.h + f.h)⟩

/-- SHA-512 digest (64 bytes) of a byte string. -/
def sha512 (msg : List Byte) : List Byte :=
  let f := (toBlocks 128 (sha512pad msg)).foldl sha512Block sha512Init
  natToBytesBE 8 f.a ++ natToBytesBE 8 f.b ++ natToBytesBE 8 f.c ++ natToBytesBE 8 f.d ++
    natToBytesBE 8 f.e ++ natToBytesBE 8 f.f ++ natToBytesBE 8 f.g ++ natToBytesBE 8 f.h

/-- Bytewise xor (for the HMAC pads). -/
def byteXor (a b : Byte) : Byte := ⟨(a.val ^^^ b.val) % 256, Nat.mod_lt _ (by decide)⟩

/-- HMAC-SHA512 with the standard 128-byte block size. -/
def hmacSHA512 (key msg : List Byte) : List Byte :=
  let k1 := if key.length > 128 then sha512 key else key
  let k0 := k1 ++ List.replicate (128 - k1.length) (⟨0, by decide⟩ : Byte)
  let ipad := k0.map (fun b => byteXor b ⟨0x36, by decide⟩)
  let opad := k0.map (fun b => byteXor b ⟨0x5c, by decide⟩)
  sha512 (opad ++ sha512 (ipad ++ msg))

/-- One PBKDF2-HMAC-SHA512 block: U1 = HMAC(password, salt ++ INT(1)),
Ui = HMAC(password, U(i-1)), output the xor of U1..U(iters). -/
def pbkdf2Block (password salt : List Byte) (iters : Nat) : List Byte :=
  let u1 := hmacSHA512 password (salt ++ natToBytesBE 4 1)
  let step := fun (acc : List Byte × List Byte) (_ : Nat) =>
    let u := hmacSHA512 password acc.1
    (u, List.zipWith byteXor acc.2 u)
  ((List.range (iters - 1)).foldl step (u1, u1)).2

/-- Seed derivation (spec 4.3): PBKDF2 with 2048 iterations of HMAC-SHA512,
password the mnemonic sentence, salt "mnemonic" ++ passphrase; the 64-byte
seed is the first (only) derived block. -/
def derive (sentence passphrase : List Byte) : List Byte :=
  pbkdf2Block sentence (strBytes "mnemonic" ++ passphrase) 2048

/-! ### secp256k1 public keys

Modelled from the spec: the HD key tree (spec 4.4) exposes
`toPublicKey(key) -> bytes`; the curve arithmetic lives in the bitcoinlib
library, so the standard secp256k1 operations are defined here. -/

/-- The secp256k1 field prime. -/
def secP : Nat := 0xfffffffffffffffffffffffffffffffffffffffffffffffffffffffefffffc2f

/-- The secp256k1 group order. -/
def secN : Nat := 0xfffffffffffffffffffffffffffffffebaaedce6af48a03bbfd25e8cd0364141

/-- Modular exponentiation by binary decomposition of the exponent. -/
def powMod (b e m : Nat) : Nat :=
  if m = 0 then 0
  else if h : e = 0 then 1 % m
  else
    let r := powMod (b * b % m) (e / 2) m
    if e % 2 = 1 then r * (b % m) % m else r
termination_by e
decreasing_by
  exact Nat.div_lt_self (Nat.pos_of_ne_zero h) (by decide)

/-- Modular inverse in the field (by the little theorem of Fermat). -/
def finv (a : Nat) : Nat := powMod a (secP - 2) secP

/-- A point of the curve: none is the point at infinity. -/
abbrev Point := Option (Nat × Nat)

def pDouble (p : Point) : Point :=
  match p with
  | none => none
  | some (x, y) =>
    if y % secP = 0 then none
    else
      let l := 3 * x * x % secP * finv (2 * y % secP) % secP
      let xr := (l * l + 2 * (secP - x % secP)) % secP
      let yr := (l * ((x + (secP - xr)) % secP) + (secP - y % secP)) % secP
      some (xr, yr)

def pAdd (p q : Point) : Point :=
  match p, q with
  | none, q => q
  | p, none => p
  | some (x1, y1), some (x2, y2) =>
    if x1 % secP = x2 % secP then
      if (y1 + y2) % secP = 0 then none else pDouble (some (x1, y1))
    else
      let l := ((y2 + (secP - y1 % secP)) % secP) *
        finv ((x2 + (secP - x1 % secP)) % secP) % secP
      let xr := (l * l + (secP - x1 % secP) + (secP - x2 % secP)) % secP
      let yr := (l * ((x1 + (secP - xr)) % secP) + (secP - y1 % secP)) % secP
      some (xr, yr)

/-- Scalar multiplication by binary decomposition. -/
def pMul (k : Nat) (p : Point) : Point :=
  if h : k = 0 then none
  else
    let r := pMul (k / 2) (pDouble p)
    if k % 2 = 1 then pAdd r p else r
termination_by k
decreasing_by
  exact Nat.div_lt_self (Nat.pos_of_ne_zero h) (by decide)

/-- The secp256k1 base point. -/
def secG : Point :=
  some (0x79be667ef9dcbbac55a06295ce870b07029bfcdb2dce28d959f2815b16f81798,
        0x483ada7726a3c4655da4fbfc0e1108a8fd17b448a68554199c47d08ffb10d4b8)

/-- Compressed SEC serialization of a point (33 bytes; the infinity case does
not arise for valid keys and serializes as zeros). -/
def serP (p : Point) : List Byte :=
  match p with
  | none => List.replicate 33 ⟨0, by decide⟩
  | some (x, y) =>
    (if y % 2 = 0 then (⟨0x02, by decide⟩ : Byte) else ⟨0x03, by decide⟩) :: natToBytesBE 32 x

/-- Decompression of a 33-byte SEC public key (square root via (p+1)/4,
as the field prime is 3 mod 4). -/
def parsePoint (bs : List Byte) : Point :=
  match bs with
  | [] => none
  | prefixByte :: rest =>
    let x := bytesToNatBE rest
    let y2 := (powMod x 3 secP + 7) % secP
    let y0 := powMod y2 ((secP + 1) / 4) secP
    let y := if y0 % 2 = prefixByte.val % 2 then y0 else secP - y0
    some (x, y)

/-- Public key (compressed, 33 bytes) of a private-key scalar. -/
def toPublicKey (d : Nat) : List Byte := serP (pMul d secG)

/-! ### RIPEMD-160 and HASH160 -/

/-- Little-endian value of a byte string. -/
def bytesToNatLE (bs : List Byte) : Nat := bs.foldr (fun b a => a * 256 + b.val) 0

/-- Little-endian byte expansion of `n`, exactly `len` bytes. -/
def natToBytesLE : Nat → Nat → List Byte
  | 0, _ => []
  | len + 1, n => (⟨n % 256, Nat.mod_lt _ (by decide)⟩ : Byte) :: natToBytesLE len (n / 256)

/-- Left rotation of a 32-bit word. -/
def rotl32 (r x : Nat) : Nat := w32 ((x <<< r) ||| (x >>> (32 - r)))

def rmdR : List Nat :=
  [0, 1, 2, 3, 4, 5, 6, 7, 8, 9, 10, 11, 12, 13, 14, 15,
   7, 4, 13, 1, 10, 6, 15, 3, 12, 0, 9, 5, 2, 14, 11, 8,
   3, 10, 14, 4, 9, 15, 8, 1, 2, 7, 0, 6, 13, 11, 5, 12,
   1, 9, 11, 10, 0, 8, 12, 4, 13, 3, 7, 15, 14, 5, 6, 2,
   4, 0, 5, 9, 7, 12, 2, 10, 14, 1, 3, 8, 11, 6, 15, 13]

def rmdRp : List Nat :=
  [5, 14, 7, 0, 9, 2, 11, 4, 13, 6, 15, 8, 1, 10, 3, 12,
   6, 11, 3, 7, 0, 13, 5, 10, 14, 15, 8, 12, 4, 9, 1, 2,
   15, 5, 1, 3, 7, 14, 6, 9, 11, 8, 12, 2, 10, 0, 4, 13,
   8, 6, 4, 1, 3, 11, 15, 0, 5, 12, 2, 13, 9, 7, 10, 14,
   12, 15, 10, 4, 1, 5, 8, 7, 6, 2, 13, 14, 0, 3, 9, 11]

def rmdS : List Nat :=
  [11, 14, 15, 12, 5, 8, 7, 9, 11, 13, 14, 15, 6, 7, 9, 8,
   7, 6, 8, 13, 11, 9, 7, 15, 7, 12, 15, 9, 11, 7, 13, 12,
   11, 13, 6, 7, 14, 9, 13, 15, 14, 8, 13, 6, 5, 12, 7, 5,
   11, 12, 14, 15, 14, 15, 9, 8, 9, 14, 5, 6, 8, 6, 5, 12,
   9, 15, 5, 11, 6, 8, 13, 12, 5, 12, 13, 14, 11, 8, 5, 6]

def rmdSp : List Nat :=
  [8, 9, 9, 11, 13, 15, 15, 5, 7, 7, 8, 11, 14, 14, 12, 6,
   9, 13, 15, 7, 12, 8, 9, 11, 7, 7, 12, 7, 6, 15, 13, 11,
   9, 7, 15, 11, 8, 6, 6, 14, 12, 13, 5, 14, 13, 13, 7, 5,
   15, 5, 8, 11, 14, 14, 6, 14, 6, 9, 12, 9, 12, 5, 15, 8,
   8, 5, 12, 9, 12, 5, 14, 6, 8, 13, 6, 5, 15, 13, 11, 11]

/-- The five RIPEMD-160 round functions, selected by the step number. -/
def rmdF (j x y z : Nat) : Nat :=
  if j < 16 then x ^^^ y ^^^ z
  else if j < 32 then (x &&& y) ||| ((x ^^^ 0xffffffff) &&& z)
  else if j < 48 then (x ||| (y ^^^ 0xffffffff)) ^^^ z
  else if j < 64 then (x &&& z) ||| (y &&& (z ^^^ 0xffffffff))
  else x ^^^ (y ||| (z ^^^ 0xffffffff))

def rmdK (j : Nat) : Nat :=
  if j < 16 then 0 else if j < 32 then 0x5a827999 else if j < 48 then 0x6ed9eba1
  else if j < 64 then 0x8f1bbcdc else 0xa953fd4e

def rmdKp (j : Nat) : Nat :=
  if j < 16 then 0x50a28be6 else if j < 32 then 0x5c4dd124 else if j < 48 then 0x6d703ef3
  else if j < 64 then 0x7a6d76e9 else 0

/-- The five working registers of one RIPEMD-160 line. -/
structure Reg5 where
  a : Nat
  b : Nat
  c : Nat
  d : Nat
  e : Nat

/-- One step of one RIPEMD-160 line; `x` are the 16 block words. -/
def rmdStepLine (f : Nat → Nat → Nat → Nat → Nat) (k : Nat → Nat) (r s : List Nat)
    (x : List Nat) (st : Reg5) (j : Nat) : Reg5 :=
  let t := w32 (rotl32 (s.getD j 0)
    (w32 (st.a + f j st.b st.c st.d + x.getD (r.getD j 0) 0 + k j)) + st.e)
  ⟨st.e, t, st.b, rotl32 10 st.c, st.d⟩

def rmdInit : Reg5 := ⟨0x67452301, 0xefcdab89, 0x98badcfe, 0x10325476, 0xc3d2e1f0⟩

/-- RIPEMD-160 compression of one 64-byte block. -/
def rmdBlock (H : Reg5) (block : List Byte) : Reg5 :=
  let x := (toBlocks 4 block).map bytesToNatLE
  let L := (List.range 80).foldl (rmdStepLine rmdF rmdK rmdR rmdS x) H
  let R := (List.range 80).foldl
    (rmdStepLine (fun j => rmdF (79 - j)) rmdKp rmdRp rmdSp x) H
  ⟨w32 (H.b + L.c + R.d), w32 (H.c + L.d + R.e), w32 (H.d + L.e + R.a),
   w32 (H.e + L.a + R.b), w32 (H.a + L.b + R.c)⟩

/-- RIPEMD-160 padding: like SHA-2 but with little-endian length. -/
def rmdPad (msg : List Byte) : List Byte :=
  let L := msg.length
  let zeros := (64 - ((L + 9) % 64)) % 64
  msg ++ [⟨0x80, by decide⟩] ++ List.replicate zeros (⟨0, by decide⟩ : Byte) ++
    natToBytesLE 8 (8 * L)

/-- RIPEMD-160 digest (20 bytes) of a byte string. -/
def ripemd160 (msg : List Byte) : List Byte :=
  let f := (toBlocks 64 (rmdPad msg)).foldl rmdBlock rmdInit
  natToBytesLE 4 f.a ++ natToBytesLE 4 f.b ++ natToBytesLE 4 f.c ++
    natToBytesLE 4 f.d ++ natToBytesLE 4 f.e

/-- HASH160: SHA-256 then RIPEMD-160 (spec 4.5). -/
def hash160 (bs : List Byte) : List Byte := ripemd160 (sha256 bs)

/-! ### Base58Check and Bech32 (spec 4.5) -/

def b58Alphabet : List Char :=
  "123456789ABCDEFGHJKLMNPQRSTUVWXYZabcdefghijkmnopqrstuvwxyz".data

/-- Base-58 digits of `n`, least significant first. -/
def b58Digits (n : Nat) : List Nat :=
  if h : n = 0 then []
  else n % 58 :: b58Digits (n / 58)
termination_by n
decreasing_by
  exact Nat.div_lt_self (Nat.pos_of_ne_zero h) (by decide)

/-- Count of leading zero bytes. -/
def leadingZeros : List Byte → Nat
  | [] => 0
  | b :: bs => if b.val = 0 then leadingZeros bs + 1 else 0

/-- Base-58 encoding: leading zero bytes become ones, the rest positional. -/
def base58 (bs : List Byte) : String :=
  let digits := (b58Digits (bytesToNatBE bs)).reverse
  String.mk (List.replicate (leadingZeros bs) (Char.ofNat 49) ++
    digits.map (fun d => (b58Alphabet.getD d (Char.ofNat 49))))

/-- Base58Check: payload plus the first four bytes of its double SHA-256. -/
def base58check (payload : List Byte) : String :=
  base58 (payload ++ (sha256 (sha256 payload)).take 4)

def bech32Charlist : List Char := "qpzry9x8gf2tvdw0s3jn54khce6mua7l".data

def bech32Gen : List Nat := [0x3b6a57b2, 0x26508e6d, 0x1ea119fa, 0x3d4233dd, 0x2a1462b3]

/-- The Bech32 checksum polymod over 5-bit values. -/
def bech32Polymod (values : List Nat) : Nat :=
  values.foldl
    (fun chk v =>
      let b := chk >>> 25
      let chk2 := ((chk &&& 0x1ffffff) <<< 5) ^^^ v
      (List.range 5).foldl
        (fun c i => if (b >>> i) &&& 1 = 1 then c ^^^ bech32Gen.getD i 0 else c) chk2)
    1

/-- Expansion of the human-readable part for the checksum. -/
def bech32HrpExpand (hrp : List Char) : List Nat :=
  hrp.map (fun c => c.toNat >>> 5) ++ [0] ++ hrp.map (fun c => c.toNat &&& 31)

def bech32Checksum (hrp : List Char) (data : List Nat) : List Nat :=
  let pm := bech32Polymod (bech32HrpExpand hrp ++ data ++ [0, 0, 0, 0, 0, 0]) ^^^ 1
  (List.range 6).map (fun i => (pm >>> (5 * (5 - i))) &&& 31)

/-- Bech32 encoding of 5-bit data with the given human-readable part. -/
def bech32Encode (hrp : List Char) (data : List Nat) : String :=
  String.mk (hrp ++ [Char.ofNat 49] ++
    (data ++ bech32Checksum hrp data).map (fun d => bech32Charlist.getD d (Char.ofNat 113)))

/-- Regrouping 8-bit bytes into 5-bit values with zero padding (BIP-173). -/
def convertBits8to5 (bs : List Byte) : List Nat :=
  let bits := bytesToBits bs
  let padded := bits ++ List.replicate ((5 - bits.length % 5) % 5) false
  toGroupsW 5 padded

/-! ### HD key tree (spec 4.4)

Modelled from the spec: the BIP-32 key tree lives in the bitcoinlib library;
the spec describes the master-key construction (HMAC-SHA512 with key
"Bitcoin seed"), hardened and non-hardened child derivation, path derivation,
and WIF export. -/

inductive Network where
  | mainnet
  | testnet
deriving DecidableEq, Repr

inductive ScriptType where
  | legacy
  | wrappedSegwit
  | nativeSegwit
deriving DecidableEq, Repr

/-- A node of the HD tree (spec section 3): optional private key material,
public key, chain code, depth, parent fingerprint, child index, network tag. -/
structure ExtendedKey where
  privKey : Option Nat
  pubKey : List Byte
  chainCode : List Byte
  depth : Nat
  parentFp : List Byte
  childIndex : Nat
  network : Network
deriving DecidableEq, Repr

/-- 4-byte big-endian serialization of a child index. -/
def ser32 (i : Nat) : List Byte := natToBytesBE 4 i

/-- Master key from a seed: HMAC-SHA512 with key "Bitcoin seed"; the first 32
bytes are the master private key, the last 32 the master chain code. -/
def masterKey (seed : List Byte) (net : Network) : ExtendedKey :=
  let I := hmacSHA512 (strBytes "Bitcoin seed") seed
  let k := bytesToNatBE (I.take 32) % secN
  { privKey := some k, pubKey := toPublicKey k, chainCode := I.drop 32,
    depth := 0, parentFp := List.replicate 4 ⟨0, by decide⟩, childIndex := 0, network := net }

/-- Child derivation (spec 4.4). Hardened derivation (index ≥ 2^31 or the
explicit flag) requires the parent private key and fails with
PrivateKeyRequired on a public-only node; non-hardened derivation from a
public-only node uses point addition (watch-only trees). -/
def deriveChild (parent : ExtendedKey) (index : Nat) (hardened : Bool) : Except Err ExtendedKey :=
  let hard := hardened || decide (2 ^ 31 ≤ index)
  let idx := if hardened && decide (index < 2 ^ 31) then index + 2 ^ 31 else index
  if hard then
    match parent.privKey with
    | none => .error .PrivateKeyRequired
    | some k =>
      let I := hmacSHA512 parent.chainCode
        ((⟨0, by decide⟩ : Byte) :: natToBytesBE 32 k ++ ser32 idx)
      let ck := (bytesToNatBE (I.take 32) + k) % secN
      .ok { privKey := some ck, pubKey := toPublicKey ck, chainCode := I.drop 32,
            depth := parent.depth + 1, parentFp := (hash160 parent.pubKey).take 4,
            childIndex := idx, network := parent.network }
  else
    let I := hmacSHA512 parent.chainCode (parent.pubKey ++ ser32 idx)
    match parent.privKey with
    | some k =>
      let ck := (bytesToNatBE (I.take 32) + k) % secN
      .ok { privKey := some ck, pubKey := toPublicKey ck, chainCode := I.drop 32,
            depth := parent.depth + 1, parentFp := (hash160 parent.pubKey).take 4,
            childIndex := idx, network := parent.network }
    | none =>
      let cpub := serP (pAdd (pMul (bytesToNatBE (I.take 32)) secG) (parsePoint parent.pubKey))
      .ok { privKey := none, pubKey := cpub, chainCode := I.drop 32,
            depth := parent.depth + 1, parentFp := (hash160 parent.pubKey).take 4,
            childIndex := idx, network := parent.network }

/-- Path derivation: deriveChild applied left to right along the path. -/
def derivePath (root : ExtendedKey) : List (Nat × Bool) → Except Err ExtendedKey
  | [] => .ok root
  | (i, hd) :: rest =>
    match deriveChild root i hd with
    | .ok c => derivePath c rest
    | .error e => .error e

/-- WIF export of the private key (spec 4.4): Base58Check of the network
version byte, the 32-byte key, and the compression marker; fails with
NoPrivateKey on public-only nodes. -/
def toWIF (key : ExtendedKey) (net : Network) : Except Err String :=
  match key.privKey with
  | none => .error .NoPrivateKey
  | some d =>
    let ver : Byte := match net with
      | .mainnet => ⟨0x80, by decide⟩
      | .testnet => ⟨0xef, by decide⟩
    .ok (base58check (ver :: natToBytesBE 32 d ++ [⟨1, by decide⟩]))

/-! ### Address encoder (spec 4.5) -/

/-- Address of a public key for a network and script type: HASH160 of the key,
then Base58Check (legacy and wrapped segwit) or Bech32 (native segwit). -/
def encodeAddress (pubkey : List Byte) (net : Network) (st : ScriptType) : String :=
  let h := hash160 pubkey
  match st with
  | .legacy =>
    let ver : Byte := match net with
      | .mainnet => ⟨0x00, by decide⟩
      | .testnet => ⟨0x6f, by decide⟩
    base58check (ver :: h)
  | .wrappedSegwit =>
    let redeemScript := (⟨0x00, by decide⟩ : Byte) :: (⟨0x14, by decide⟩ : Byte) :: h
    let ver : Byte := match net with
      | .mainnet => ⟨0x05, by decide⟩
      | .testnet => ⟨0xc4, by decide⟩
    base58check (ver :: hash160 redeemScript)
  | .nativeSegwit =>
    let hrp := match net with
      | .mainnet => "bc".data
      | .testnet => "tb".data
    bech32Encode hrp (0 :: convertBits8to5 h)

/-! ### Wallet facade (spec 4.6 and section 6) -/

def parseNetwork (s : String) : Except Err Network :=
  if s = "mainnet" then .ok .mainnet
  else if s = "testnet" then .ok .testnet
  else .error .UnsupportedNetwork

def parseScriptType (s : String) : Except Err ScriptType :=
  if s = "legacy" then .ok .legacy
  else if s = "wrapped-segwit" then .ok .wrappedSegwit
  else if s = "native-segwit" then .ok .nativeSegwit
  else .error .InvalidParameter

/-- Entropy source (spec 4.1), with the operating-system randomness injected
as an explicit argument (spec section 9: tests inject fixed entropy); fails
with InvalidParameter unless the bit count is supported and matched. -/
def generate (bits : Nat) (rand : List Byte) : Except Err (List Byte) :=
  if bits ∈ [128, 160, 192, 224, 256] then
    if 8 * rand.length = bits then .ok rand else .error .InvalidParameter
  else .error .InvalidParameter

/-- Modelled from the spec: the spec fixes a 2048-word list but does not
enumerate its words, so a word is represented by the decimal digits of its
index (an injective stand-in for the word spelling). -/
def wordOf (i : Nat) : List Byte := strBytes (toString i)

/-- The mnemonic sentence: words joined by single spaces. -/
def mnemonicSentence : Mnemonic → List Byte
  | [] => []
  | [w] => wordOf w
  | w :: ws => wordOf w ++ (⟨32, by decide⟩ : Byte) :: mnemonicSentence ws

def purposeIdx : ScriptType → Nat
  | .legacy => 44
  | .wrappedSegwit => 49
  | .nativeSegwit => 84

def coinIdx : Network → Nat
  | .mainnet => 0
  | .testnet => 1

/-- Default first-address derivation path appropriate to the script type and
network (spec 4.6): purpose, coin, account hardened, then 0/0. -/
def defaultPath (st : ScriptType) (net : Network) : List (Nat × Bool) :=
  [(purposeIdx st, true), (coinIdx net, true), (0, true), (0, false), (0, false)]

/-- The record returned by createNew (spec section 6): the mnemonic, the first
address, and the private key in WIF encoding. -/
structure CreateResult where
  mnemonic : Mnemonic
  address : String
  privateKeyWIF : String
deriving DecidableEq, Repr

/-- Wallet creation (spec 4.6 and section 6): composes the entropy source,
mnemonic codec, seed derivation, HD tree and address encoder for the default
first-address path. -/
def createNew (network scriptType : String) (entropyBits : Nat) (rand : List Byte) :
    Except Err CreateResult :=
  match parseNetwork network with
  | .error e => .error e
  | .ok net =>
    match parseScriptType scriptType with
    | .error e => .error e
    | .ok st =>
      match generate entropyBits rand with
      | .error e => .error e
      | .ok entropy =>
        let m := encode entropy
        let root := masterKey (derive (mnemonicSentence m) []) net
        match derivePath root (defaultPath st net) with
        | .error e => .error e
        | .ok key =>
          match toWIF key net with
          | .error e => .error e
          | .ok wif => .ok ⟨m, encodeAddress key.pubKey net st, wif⟩

def digitChar (c : Char) : Bool := decide (48 ≤ c.toNat ∧ c.toNat ≤ 57)

/-- Splitting a character list at every slash (character code 47). -/
def splitSlash : List Char → List (List Char)
  | [] => [[]]
  | c :: cs =>
    if c.toNat = 47 then [] :: splitSlash cs
    else
      match splitSlash cs with
      | [] => [[c]]
      | seg :: rest => (c :: seg) :: rest

/-- One step of a derivation path: digits with an optional hardening marker
(apostrophe or the letter h). -/
def parseSeg (cs : List Char) : Option (Nat × Bool) :=
  let hardened : Bool :=
    match cs.getLast? with
    | some c => decide (c.toNat = 39 ∨ c.toNat = 104)
    | none => false
  let digits := if hardened then cs.dropLast else cs
  if digits = [] then none
  else if digits.all digitChar then
    some (digits.foldl (fun a c => a * 10 + (c.toNat - 48)) 0, hardened)
  else none

/-- Parsing of a derivation path string such as m/84h/1h/0h/0/0; fails with
InvalidPath on malformed syntax. -/
def parsePath (path : String) : Except Err (List (Nat × Bool)) :=
  match splitSlash path.data with
  | [] => .error .InvalidPath
  | root :: rest =>
    if root = "m".data then
      match rest.mapM parseSeg with
      | some segs => .ok segs
      | none => .error .InvalidPath
    else .error .InvalidPath

/-- The record recover returns (spec section 6). -/
structure RecoverResult where
  address : String
  privateKeyWIF : String
deriving DecidableEq, Repr

/-- Wallet recovery (spec 4.6): validates the mnemonic through decode, then
derives seed, key and address; fails with whatever error the codec or the key
tree raised, unmodified. -/
def recover (m : Mnemonic) (passphrase : List Byte) (network scriptType path : String) :
    Except Err RecoverResult :=
  match decode m with
  | .error e => .error e
  | .ok _ =>
    match parseNetwork network with
    | .error e => .error e
    | .ok net =>
      match parseScriptType scriptType with
      | .error e => .error e
      | .ok st =>
        match parsePath path with
        | .error e => .error e
        | .ok p =>
          let root := masterKey (derive (mnemonicSentence m) passphrase) net
          match derivePath root p with
          | .error e => .error e
          | .ok key =>
            match toWIF key net with
            | .error e => .error e
            | .ok wif => .ok ⟨encodeAddress key.pubKey net st, wif⟩

/-- A concrete extended key used as the witness input for C4. -/
def exampleKey : ExtendedKey :=
  { privKey := some 1, pubKey := toPublicKey 1, chainCode := List.replicate 32 (0 : Byte),
    depth := 0, parentFp := List.replicate 4 (0 : Byte), childIndex := 0,
    network := Network.testnet }

end Wallet

namespace Script

/-! ### Shallow embedding of src/wallet.py

The script generates a mnemonic (line 6), creates a wallet via
Wallet.create('richarddushime', witness_type='segwit', keys=mnemonic,
network='testnet') (line 9), takes the first key (line 12), prints its address
and WIF (lines 15-16), and writes them to py-wallet.json (lines 19-20). The
mnemonic produced by the library on line 6 and the key object returned by the
library on line 12 are modelled as inputs of the run. -/

/-- The first key of the created wallet as the bitcoinlib library returns it
(wallet.get_key() on line 12): address string and WIF-encoded private key. -/
structure KeyInfo where
  address : String
  wif : String
deriving DecidableEq, Repr

/-- One file write performed by the script: file name, open mode, content. -/
structure FileWrite where
  name : String
  mode : String
  content : String
deriving DecidableEq, Repr

/-- The arguments of the Wallet.create call on line 9. -/
structure WalletCreateArgs where
  name : String
  witness_type : String
  keys : List Nat
  network : String
deriving DecidableEq, Repr

/-- The observable behavior of one run of create_wallet: the Wallet.create
call it makes, the lines it prints, and the files it writes. -/
structure RunResult where
  walletCreate : WalletCreateArgs
  stdout : List String
  writes : List FileWrite
deriving DecidableEq, Repr

/-- The content written on line 20: raw string concatenation of the address
and the WIF into a JSON-shaped object, with no escaping. -/
def walletJson (address wif : String) : String :=
  "\x7b\"address\": \"" ++ address ++ "\", \"privateKey\": \"" ++ wif ++ "\"\x7d"

/-- Shallow embedding of create_wallet (src/wallet.py lines 4-20). -/
def create_wallet (mnemonic : List Nat) (key : KeyInfo) : RunResult :=
  { walletCreate :=
      { name := "richarddushime", witness_type := "segwit", keys := mnemonic,
        network := "testnet" },
    stdout :=
      ["| Public Address | " ++ key.address ++ " |",
       "| Private Key     | " ++ key.wif ++ " |"],
    writes :=
      [{ name := "py-wallet.json", mode := "w",
         content := walletJson key.address key.wif }] }

/-- File-system semantics of one write in mode "w": the previous content of
the file, whatever it was, is replaced. -/
def applyWrite (fs : String → Option String) (w : FileWrite) : String → Option String :=
  fun n => if n = w.name then some w.content else fs n

def applyWrites (fs : String → Option String) : List FileWrite → (String → Option String)
  | [] => fs
  | w :: ws => applyWrites (applyWrite fs w) ws

/-! ### A JSON object reader, to state what the written content contains.

It accepts a flat object: an opening brace, comma-separated `"key": "value"`
pairs of unescaped strings, a closing brace, with optional spaces. -/

/-- Characters legal inside an unescaped JSON string body (no double quote,
no backslash). -/
def jsonSafe (c : Char) : Prop := c.toNat ≠ 34 ∧ c.toNat ≠ 92

instance (c : Char) : Decidable (jsonSafe c) := by unfold jsonSafe; infer_instance

/-- Reading a string body up to the closing double quote; a backslash is
rejected (the script writes no escapes). -/
def scanStr : List Char → Option (List Char × List Char)
  | [] => none
  | c :: cs =>
    if c.toNat = 34 then some ([], cs)
    else if c.toNat = 92 then none
    else (scanStr cs).map fun sr => (c :: sr.1, sr.2)

/-- Consuming one expected character, given by its code. -/
def expectCode (n : Nat) : List Char → Option (List Char)
  | [] => none
  | x :: xs => if x.toNat = n then some xs else none

/-- Skipping spaces. -/
def skipWs (cs : List Char) : List Char := cs.dropWhile fun c => decide (c.toNat = 32)

/-- One `"key": "value"` pair. -/
def parsePair (cs : List Char) : Option ((List Char × List Char) × List Char) :=
  (expectCode 34 cs).bind fun cs1 =>
  (scanStr cs1).bind fun kr =>
  (expectCode 58 kr.2).bind fun cs2 =>
  (expectCode 32 cs2).bind fun cs3 =>
  (expectCode 34 cs3).bind fun cs4 =>
  (scanStr cs4).map fun vr => ((kr.1, vr.1), vr.2)

/-- Comma-separated pairs (fuel-bounded recursion). -/
def parsePairs : Nat → List Char → Option (List (List Char × List Char) × List Char)
  | 0, _ => none
  | fuel + 1, cs =>
    (parsePair (skipWs cs)).bind fun pr =>
    match skipWs pr.2 with
    | [] => some ([pr.1], [])
    | c :: cs2 =>
      if c.toNat = 44 then
        (parsePairs fuel cs2).map fun psr => (pr.1 :: psr.1, psr.2)
      else some ([pr.1], c :: cs2)

/-- The key-value pairs of a flat JSON object, or none when the characters are
not a well-formed flat object. -/
def parseObj (cs : List Char) : Option (List (String × String)) :=
  (expectCode 123 (skipWs cs)).bind fun cs1 =>
  (parsePairs (cs1.length + 1) cs1).bind fun psr =>
  (expectCode 125 (skipWs psr.2)).bind fun rest =>
  if skipWs rest = [] then
    some (psr.1.map fun p => (String.mk p.1, String.mk p.2))
  else none

def addrKey : List Char := "address".data

def privKeyKey : List Char := "privateKey".data

end Script

namespace Wallet

theorem length_natToBitsLE (w n : Nat) : (natToBitsLE w n).length = w := by
  induction w generalizing n with
  | zero => rfl
  | succ w ih => simp [natToBitsLE, ih]

theorem length_natToBits (w n : Nat) : (natToBits w n).length = w := by
  simp [natToBits, length_natToBitsLE]

theorem bitsLEToNat_lt (bs : List Bool) : bitsLEToNat bs < 2 ^ bs.length := by
  induction bs with
  | nil => simp [bitsLEToNat]
  | cons b bs ih =>
    have h2 : 2 ^ (b :: bs).length = 2 * 2 ^ bs.length := by
      simp [List.length_cons, Nat.pow_succ, Nat.mul_comm]
    have hb : (if b then 1 else 0) ≤ 1 := by cases b <;> simp
    simp only [bitsLEToNat]
    omega

theorem bitsToNat_lt (bs : List Bool) : bitsToNat bs < 2 ^ bs.length := by
  have h := bitsLEToNat_lt bs.reverse
  simpa [bitsToNat] using h

theorem natToBitsLE_bitsLEToNat : ∀ bs : List Bool, natToBitsLE bs.length (bitsLEToNat bs) = bs
  | [] => rfl
  | b :: bs => by
    have ih := natToBitsLE_bitsLEToNat bs
    cases b with
    | false =>
      have h1 : (0 + 2 * bitsLEToNat bs) % 2 = 0 := by omega
      have h2 : (0 + 2 * bitsLEToNat bs) / 2 = bitsLEToNat bs := by omega
      simp [natToBitsLE, bitsLEToNat, h1, h2, ih]
    | true =>
      have h1 : (1 + 2 * bitsLEToNat bs) % 2 = 1 := by omega
      have h2 : (1 + 2 * bitsLEToNat bs) / 2 = bitsLEToNat bs := by omega
      simp [natToBitsLE, bitsLEToNat, h1, h2, ih]

theorem natToBits_bitsToNat (bs : List Bool) : natToBits bs.length (bitsToNat bs) = bs := by
  have h := natToBitsLE_bitsLEToNat bs.reverse
  rw [List.length_reverse] at h
  simp [natToBits, bitsToNat, h]

theorem bitsLEToNat_natToBitsLE (w : Nat) : ∀ n, bitsLEToNat (natToBitsLE w n) = n % 2 ^ w := by
  induction w with
  | zero => intro n; simp [natToBitsLE, bitsLEToNat, Nat.mod_one]
  | succ w ih =>
    intro n
    have h2 : 2 ^ (w + 1) = 2 * 2 ^ w := by rw [Nat.pow_succ, Nat.mul_comm]
    have hlt : n % 2 ^ (w + 1) < 2 ^ (w + 1) := Nat.mod_lt _ (Nat.pos_pow_of_pos _ (by decide))
    have hmod : n % 2 ^ (w + 1) = n % 2 + 2 * (n / 2 % 2 ^ w) := by
      have e1 : n % 2 ^ (w + 1) % 2 = n % 2 := by
        rw [h2]
        exact Nat.mod_mod_of_dvd n ⟨2 ^ w, rfl⟩
      have e2 : n % 2 ^ (w + 1) / 2 = n / 2 % 2 ^ w := by
        rw [h2, Nat.mod_mul_right_div_self]
      omega
    cases h : decide (n % 2 = 1) with
    | false =>
      have h0 : n % 2 = 0 := by
        have := of_decide_eq_false h; omega
      simp [natToBitsLE, h, bitsLEToNat, ih]
      omega
    | true =>
      have h1 : n % 2 = 1 := of_decide_eq_true h
      simp [natToBitsLE, h, bitsLEToNat, ih]
      omega

theorem bitsToNat_natToBits (w n : Nat) : bitsToNat (natToBits w n) = n % 2 ^ w := by
  simp [bitsToNat, natToBits, bitsLEToNat_natToBitsLE]

theorem length_bytesToBits (bs : List Byte) : (bytesToBits bs).length = 8 * bs.length := by
  induction bs with
  | nil => rfl
  | cons b bs ih =>
    simp [bytesToBits, byteBits, length_natToBits, ih]
    omega

theorem bitsToBytes_nil : bitsToBytes [] = [] := by simp [bitsToBytes]

theorem bitsToBytes_cons (bits : List Bool) (h : bits ≠ []) :
    bitsToBytes bits =
      ⟨bitsToNat (bits.take 8) % 256, Nat.mod_lt _ (by decide)⟩ :: bitsToBytes (bits.drop 8) := by
  rw [bitsToBytes]
  rw [dif_neg h]

theorem length_fromGroupsW (w : Nat) (gs : List Nat) :
    (fromGroupsW w gs).length = w * gs.length := by
  induction gs with
  | nil => rfl
  | cons g gs ih =>
    simp [fromGroupsW, length_natToBits, ih, Nat.mul_succ]
    omega

theorem take_append_of_length {α : Type} (l1 l2 : List α) (n : Nat) (h : l1.length = n) :
    (l1 ++ l2).take n = l1 := by
  subst h; exact List.take_left l1 l2

theorem drop_append_of_length {α : Type} (l1 l2 : List α) (n : Nat) (h : l1.length = n) :
    (l1 ++ l2).drop n = l2 := by
  subst h; exact List.drop_left l1 l2

theorem fromGroupsW_toGroupsW_aux (w : Nat) (hw : 0 < w) :
    ∀ n (bits : List Bool), bits.length ≤ n → bits.length % w = 0 →
      fromGroupsW w (toGroupsW w bits) = bits := by
  intro n
  induction n with
  | zero =>
    intro bits hn _
    have hb : bits = [] := List.eq_nil_of_length_eq_zero (Nat.le_zero.mp hn)
    subst hb
    simp [toGroupsW, fromGroupsW]
  | succ n ih =>
    intro bits hn hmod
    by_cases hnil : bits = []
    · subst hnil; simp [toGroupsW, fromGroupsW]
    · have hlen : 0 < bits.length :=
        Nat.pos_of_ne_zero (fun h => hnil (List.eq_nil_of_length_eq_zero h))
      have hwle : w ≤ bits.length := by
        rcases Nat.lt_or_ge bits.length w with h | h
        · rw [Nat.mod_eq_of_lt h] at hmod; omega
        · exact h
      rw [toGroupsW, if_neg (by push_neg; exact ⟨hnil, Nat.pos_iff_ne_zero.mp hw⟩)]
      simp only [fromGroupsW]
      have htake : (bits.take w).length = w := by
        simp [List.length_take]; omega
      have h1 : natToBits w (bitsToNat (bits.take w)) = bits.take w := by
        have := natToBits_bitsToNat (bits.take w)
        rwa [htake] at this
      obtain ⟨k, hk⟩ := Nat.dvd_of_mod_eq_zero hmod
      have hsub : (bits.drop w).length % w = 0 := by
        rcases k with _ | k2
        · simp [List.length_drop, hk]
        · have hms : w * (k2 + 1) = w * k2 + w := Nat.mul_succ w k2
          have he : (bits.drop w).length = w * k2 := by
            simp [List.length_drop]; omega
          rw [he]
          exact Nat.mul_mod_right w k2
      have h2 : fromGroupsW w (toGroupsW w (bits.drop w)) = bits.drop w := by
        apply ih
        · simp [List.length_drop]; omega
        · exact hsub
      rw [h1, h2]
      exact List.take_append_drop w bits

theorem fromGroupsW_toGroupsW (w : Nat) (hw : 0 < w) (bits : List Bool)
    (hmod : bits.length % w = 0) : fromGroupsW w (toGroupsW w bits) = bits :=
  fromGroupsW_toGroupsW_aux w hw bits.length bits (Nat.le_refl _) hmod

theorem length_toGroupsW (w : Nat) (hw : 0 < w) (bits : List Bool)
    (hmod : bits.length % w = 0) : (toGroupsW w bits).length = bits.length / w := by
  have h2 := congrArg List.length (fromGroupsW_toGroupsW w hw bits hmod)
  rw [length_fromGroupsW] at h2
  have h3 : bits.length = (toGroupsW w bits).length * w := by
    rw [← h2, Nat.mul_comm]
  rw [h3, Nat.mul_div_cancel _ hw]

theorem toGroupsW_lt_aux (w : Nat) :
    ∀ n (bits : List Bool), bits.length ≤ n → ∀ g ∈ toGroupsW w bits, g < 2 ^ w := by
  intro n
  induction n with
  | zero =>
    intro bits hn g hg
    have hb : bits = [] := List.eq_nil_of_length_eq_zero (Nat.le_zero.mp hn)
    subst hb
    simp [toGroupsW] at hg
  | succ n ih =>
    intro bits hn g hg
    by_cases hc : bits = [] ∨ w = 0
    · rw [toGroupsW, if_pos hc] at hg
      simp at hg
    · rw [toGroupsW, if_neg hc] at hg
      push_neg at hc
      rcases List.mem_cons.mp hg with hg1 | hg1
      · subst hg1
        have h1 : (bits.take w).length ≤ w := by
          simp [List.length_take]
        calc bitsToNat (bits.take w) < 2 ^ (bits.take w).length := bitsToNat_lt _
          _ ≤ 2 ^ w := Nat.pow_le_pow_right (by decide) h1
      · apply ih (bits.drop w) _ g hg1
        have h0 : 0 < bits.length :=
          Nat.pos_of_ne_zero (fun h => hc.1 (List.eq_nil_of_length_eq_zero h))
        simp [List.length_drop]
        omega

theorem toGroupsW_lt (w : Nat) (bits : List Bool) :
    ∀ g ∈ toGroupsW w bits, g < 2 ^ w :=
  toGroupsW_lt_aux w bits.length bits (Nat.le_refl _)

theorem toGroupsW_fromGroupsW (w : Nat) (hw : 0 < w) :
    ∀ gs : List Nat, (∀ g ∈ gs, g < 2 ^ w) → toGroupsW w (fromGroupsW w gs) = gs := by
  intro gs
  induction gs with
  | nil => intro _; simp [fromGroupsW, toGroupsW]
  | cons g gs ih =>
    intro hg
    have hlt : g < 2 ^ w := hg g (List.mem_cons_self g gs)
    simp only [fromGroupsW]
    have hne : ¬(natToBits w g ++ fromGroupsW w gs = [] ∨ w = 0) := by
      push_neg
      refine ⟨fun hcon => ?_, by omega⟩
      have := congrArg List.length hcon
      simp [length_natToBits] at this
      omega
    rw [toGroupsW, if_neg hne]
    rw [take_append_of_length _ _ _ (length_natToBits w g),
        drop_append_of_length _ _ _ (length_natToBits w g)]
    rw [bitsToNat_natToBits, Nat.mod_eq_of_lt hlt,
        ih (fun x hx => hg x (List.mem_cons_of_mem g hx))]

theorem bitsToBytes_bytesToBits_append :
    ∀ (e : List Byte) (r : List Bool), bitsToBytes (bytesToBits e ++ r) = e ++ bitsToBytes r := by
  intro e
  induction e with
  | nil => intro r; simp [bytesToBits]
  | cons b e ih =>
    intro r
    have hb8 : (byteBits b).length = 8 := length_natToBits 8 b.val
    show bitsToBytes (byteBits b ++ bytesToBits e ++ r) = (b :: e) ++ bitsToBytes r
    rw [List.append_assoc]
    have hne : byteBits b ++ (bytesToBits e ++ r) ≠ [] := by
      intro hcon
      have := congrArg List.length hcon
      simp [hb8] at this
    rw [bitsToBytes_cons _ hne]
    rw [take_append_of_length _ _ _ hb8, drop_append_of_length _ _ _ hb8, ih]
    have hval : bitsToNat (byteBits b) = b.val := by
      rw [byteBits, bitsToNat_natToBits]
      exact Nat.mod_eq_of_lt (lt_of_lt_of_le b.isLt (by norm_num))
    have hfin : (⟨bitsToNat (byteBits b) % 256, Nat.mod_lt _ (by decide)⟩ : Byte) = b := by
      apply Fin.ext
      simp [hval, Nat.mod_eq_of_lt b.isLt]
    rw [hfin]
    rfl

theorem bytesToBits_bitsToBytes_aux :
    ∀ n (bits : List Bool), bits.length ≤ n → bits.length % 8 = 0 →
      bytesToBits (bitsToBytes bits) = bits := by
  intro n
  induction n with
  | zero =>
    intro bits hn _
    have hb : bits = [] := List.eq_nil_of_length_eq_zero (Nat.le_zero.mp hn)
    subst hb
    simp [bitsToBytes, bytesToBits]
  | succ n ih =>
    intro bits hn hmod
    by_cases hnil : bits = []
    · subst hnil; simp [bitsToBytes, bytesToBits]
    · have hlen : 0 < bits.length :=
        Nat.pos_of_ne_zero (fun h => hnil (List.eq_nil_of_length_eq_zero h))
      have h8 : 8 ≤ bits.length := by omega
      rw [bitsToBytes_cons _ hnil]
      show byteBits _ ++ bytesToBits (bitsToBytes (bits.drop 8)) = bits
      have htake : (bits.take 8).length = 8 := by
        simp [List.length_take]; omega
      have hlt : bitsToNat (bits.take 8) < 256 := by
        have h1 := bitsToNat_lt (bits.take 8)
        rw [htake] at h1
        exact lt_of_lt_of_le h1 (by norm_num)
      have hhead : byteBits (⟨bitsToNat (bits.take 8) % 256, Nat.mod_lt _ (by decide)⟩ : Byte)
          = bits.take 8 := by
        show natToBits 8 (bitsToNat (bits.take 8) % 256) = bits.take 8
        rw [Nat.mod_eq_of_lt hlt]
        have := natToBits_bitsToNat (bits.take 8)
        rwa [htake] at this
      rw [hhead, ih (bits.drop 8) (by simp [List.length_drop]; omega)
            (by simp [List.length_drop]; omega)]
      exact List.take_append_drop 8 bits

theorem bytesToBits_bitsToBytes (bits : List Bool) (hmod : bits.length % 8 = 0) :
    bytesToBits (bitsToBytes bits) = bits :=
  bytesToBits_bitsToBytes_aux bits.length bits (Nat.le_refl _) hmod

theorem length_bitsToBytes_aux :
    ∀ n (bits : List Bool), bits.length ≤ n →
      (bitsToBytes bits).length = (bits.length + 7) / 8 := by
  intro n
  induction n with
  | zero =>
    intro bits hn
    have hb : bits = [] := List.eq_nil_of_length_eq_zero (Nat.le_zero.mp hn)
    subst hb
    simp [bitsToBytes]
  | succ n ih =>
    intro bits hn
    by_cases hnil : bits = []
    · subst hnil; simp [bitsToBytes]
    · have hlen : 0 < bits.length :=
        Nat.pos_of_ne_zero (fun h => hnil (List.eq_nil_of_length_eq_zero h))
      rw [bitsToBytes_cons _ hnil]
      rw [List.length_cons, ih (bits.drop 8) (by simp [List.length_drop]; omega)]
      simp [List.length_drop]
      omega

theorem length_bitsToBytes (bits : List Bool) :
    (bitsToBytes bits).length = (bits.length + 7) / 8 :=
  length_bitsToBytes_aux bits.length bits (Nat.le_refl _)

theorem length_natToBytesBE (len n : Nat) : (natToBytesBE len n).length = len := by
  induction len generalizing n with
  | zero => rfl
  | succ len ih => simp [natToBytesBE, ih]

theorem length_sha256 (msg : List Byte) : (sha256 msg).length = 32 := by
  simp [sha256, length_natToBytesBE]

theorem decode_encode_aux (e : List Byte)
    (hmod : (8 * e.length + e.length / 4) % 11 = 0)
    (hcount : (8 * e.length + e.length / 4) / 11 ∈ [12, 15, 18, 21, 24])
    (hcs : ((8 * e.length + e.length / 4) / 11) / 3 = e.length / 4)
    (h32 : 32 * (e.length / 4) = 8 * e.length)
    (hsmall : e.length / 4 ≤ 256) :
    decode (encode e) = .ok e := by
  have hbb : (bytesToBits e).length = 8 * e.length := length_bytesToBits e
  have hck : (checksumBits e).length = e.length / 4 := by
    simp [checksumBits, List.length_take, length_bytesToBits, length_sha256]
    omega
  have htot : (bytesToBits e ++ checksumBits e).length = 8 * e.length + e.length / 4 := by
    simp [List.length_append, hbb, hck]
  have e1 : fromGroupsW 11 (encode e) = bytesToBits e ++ checksumBits e := by
    rw [encode]
    exact fromGroupsW_toGroupsW 11 (by decide) _ (by rw [htot]; exact hmod)
  have e2 : (encode e).length = (8 * e.length + e.length / 4) / 11 := by
    rw [encode, length_toGroupsW 11 (by decide) _ (by rw [htot]; exact hmod), htot]
  have e3 : (encode e).length / 3 = e.length / 4 := by rw [e2]; exact hcs
  have e4 : (fromGroupsW 11 (encode e)).take (32 * ((encode e).length / 3)) = bytesToBits e := by
    rw [e1, e3, h32]
    exact take_append_of_length _ _ _ hbb
  have e5 : (fromGroupsW 11 (encode e)).drop (32 * ((encode e).length / 3)) = checksumBits e := by
    rw [e1, e3, h32]
    exact drop_append_of_length _ _ _ hbb
  have e6 : bitsToBytes (bytesToBits e) = e := by
    have h := bitsToBytes_bytesToBits_append e []
    simpa [bitsToBytes_nil] using h
  have hwords : ∀ g ∈ encode e, g < 2048 := by
    intro g hg
    rw [encode] at hg
    have h := toGroupsW_lt 11 _ g hg
    norm_num at h
    exact h
  simp only [decode]
  rw [if_pos (by rw [e2]; exact hcount), if_pos hwords, e4, e6, e5, if_pos rfl]

theorem encode_decode (m : Mnemonic) (e2 : List Byte) (hd : decode m = .ok e2) :
    encode e2 = m := by
  simp only [decode] at hd
  split_ifs at hd with h1 h2 h3
  · rw [Except.ok.injEq] at hd
    have hLmem : m.length = 12 ∨ m.length = 15 ∨ m.length = 18 ∨ m.length = 21 ∨
        m.length = 24 := by
      simpa [List.mem_cons] using h1
    have hfl : (fromGroupsW 11 m).length = 11 * m.length := length_fromGroupsW 11 m
    have htklen : ((fromGroupsW 11 m).take (32 * (m.length / 3))).length =
        32 * (m.length / 3) := by
      simp [List.length_take, hfl]
      omega
    have hbits : bytesToBits e2 = (fromGroupsW 11 m).take (32 * (m.length / 3)) := by
      rw [← hd]
      exact bytesToBits_bitsToBytes _ (by rw [htklen]; omega)
    have hcksum : checksumBits e2 = (fromGroupsW 11 m).drop (32 * (m.length / 3)) := by
      rw [← hd, h3]
    have hjoin : bytesToBits e2 ++ checksumBits e2 = fromGroupsW 11 m := by
      rw [hbits, hcksum]
      exact List.take_append_drop _ _
    rw [encode, hjoin]
    exact toGroupsW_fromGroupsW 11 (by decide) m
      (fun g hg => by have := h2 g hg; norm_num; exact this)

/-- C1: for every supported entropy length (128/160/192/224/256 bits, that is
16/20/24/28/32 bytes), decoding the mnemonic produced by encoding entropy `e`
returns `e` exactly, and conversely re-encoding the entropy recovered from any
successfully decoded mnemonic reproduces the identical word sequence, so the
entropy-to-mnemonic mapping is a bijection for valid lengths. -/
theorem C1_mnemonic_roundtrip (e : List Byte) (h : e.length ∈ [16, 20, 24, 28, 32]) :
    decode (encode e) = .ok e ∧
      ∀ (m : Mnemonic) (e2 : List Byte), decode m = .ok e2 → encode e2 = m := by
  refine ⟨?_, encode_decode⟩
  have hL : e.length = 16 ∨ e.length = 20 ∨ e.length = 24 ∨ e.length = 28 ∨
      e.length = 32 := by
    simpa [List.mem_cons] using h
  exact decode_encode_aux e (by omega)
    (by simp only [List.mem_cons]; omega) (by omega) (by omega) (by omega)

/-- Witness for C1 at the 16-byte all-zero entropy of the spec's test vector. -/
theorem C1_mnemonic_roundtrip_witness :
    (List.replicate 16 (0 : Byte)).length ∈ [16, 20, 24, 28, 32] ∧
      (decode (encode (List.replicate 16 (0 : Byte))) = .ok (List.replicate 16 (0 : Byte)) ∧
        ∀ (m : Mnemonic) (e2 : List Byte), decode m = .ok e2 → encode e2 = m) :=
  ⟨by decide, C1_mnemonic_roundtrip (List.replicate 16 (0 : Byte)) (by decide)⟩

theorem length_sha512 (msg : List Byte) : (sha512 msg).length = 64 := by
  simp [sha512, length_natToBytesBE]

theorem deriveChild_priv (p : ExtendedKey) (k : Nat) (hk : p.privKey = some k)
    (i : Nat) (hd : Bool) :
    ∃ c, deriveChild p i hd = .ok c ∧ ∃ ck, c.privKey = some ck := by
  unfold deriveChild
  rcases hb : (hd || decide (2 ^ 31 ≤ i)) with _ | _ <;>
    simp only [hb, hk, if_true, if_false, Bool.false_eq_true, ite_false, ite_true] <;>
    exact ⟨_, rfl, _, rfl⟩

theorem derivePath_priv (path : List (Nat × Bool)) :
    ∀ (p : ExtendedKey) (k : Nat), p.privKey = some k →
      ∃ c ck, derivePath p path = .ok c ∧ c.privKey = some ck := by
  induction path with
  | nil => intro p k hk; exact ⟨p, k, rfl, hk⟩
  | cons step rest ih =>
    obtain ⟨i, hd⟩ := step
    intro p k hk
    obtain ⟨c, hc, ck, hck⟩ := deriveChild_priv p k hk i hd
    obtain ⟨c2, ck2, h2, h3⟩ := ih c ck hck
    refine ⟨c2, ck2, ?_, h3⟩
    simp only [derivePath, hc, h2]

/-- C2: wallet creation takes a network parameter (mainnet or testnet), a
script-type parameter and an entropy-bits parameter and returns a record whose
fields are the generated mnemonic, the derived first address, and the private
key in WIF encoding. -/
theorem C2_createNew_record (network scriptType : String) (entropyBits : Nat)
    (rand : List Byte)
    (hn : network ∈ ["mainnet", "testnet"])
    (hs : scriptType ∈ ["legacy", "wrapped-segwit", "native-segwit"])
    (hb : entropyBits ∈ [128, 160, 192, 224, 256])
    (hr : 8 * rand.length = entropyBits) :
    ∃ net st key wif,
      parseNetwork network = .ok net ∧ parseScriptType scriptType = .ok st ∧
      derivePath (masterKey (derive (mnemonicSentence (encode rand)) []) net)
        (defaultPath st net) = .ok key ∧
      toWIF key net = .ok wif ∧
      createNew network scriptType entropyBits rand =
        .ok ⟨encode rand, encodeAddress key.pubKey net st, wif⟩ := by
  have hnet : ∃ net, parseNetwork network = .ok net := by
    rcases (by simpa using hn : network = "mainnet" ∨ network = "testnet") with h | h <;>
      subst h
    · exact ⟨.mainnet, rfl⟩
    · exact ⟨.testnet, rfl⟩
  obtain ⟨net, hnet⟩ := hnet
  have hst : ∃ st, parseScriptType scriptType = .ok st := by
    rcases (by simpa using hs :
        scriptType = "legacy" ∨ scriptType = "wrapped-segwit" ∨
          scriptType = "native-segwit") with h | h | h <;> subst h
    · exact ⟨.legacy, rfl⟩
    · exact ⟨.wrappedSegwit, rfl⟩
    · exact ⟨.nativeSegwit, rfl⟩
  obtain ⟨st, hst⟩ := hst
  have hgen : generate entropyBits rand = .ok rand := by
    unfold generate
    rw [if_pos hb, if_pos hr]
  obtain ⟨key, ck, hkey, hck⟩ :=
    derivePath_priv (defaultPath st net)
      (masterKey (derive (mnemonicSentence (encode rand)) []) net) _ rfl
  have hwif : ∃ wif, toWIF key net = .ok wif := by
    unfold toWIF
    rw [hck]
    exact ⟨_, rfl⟩
  obtain ⟨wif, hwif⟩ := hwif
  refine ⟨net, st, key, wif, hnet, hst, hkey, hwif, ?_⟩
  unfold createNew
  rw [hnet, hst, hgen]
  simp only [hkey, hwif]

/-- Witness for C2 at concrete parameters: testnet, native segwit, 128 bits,
all-zero entropy. -/
theorem C2_createNew_record_witness :
    ∃ net st key wif,
      parseNetwork "testnet" = .ok net ∧ parseScriptType "native-segwit" = .ok st ∧
      derivePath (masterKey (derive (mnemonicSentence (encode (List.replicate 16 (0 : Byte)))) []) net)
        (defaultPath st net) = .ok key ∧
      toWIF key net = .ok wif ∧
      createNew "testnet" "native-segwit" 128 (List.replicate 16 (0 : Byte)) =
        .ok ⟨encode (List.replicate 16 (0 : Byte)), encodeAddress key.pubKey net st, wif⟩ :=
  C2_createNew_record "testnet" "native-segwit" 128 (List.replicate 16 (0 : Byte))
    (by decide) (by decide) (by decide) (by decide)

/-- C4: child-key derivation is deterministic: the child key material and
chain code produced by deriveChild depend only on the parent key material,
the parent chain code, the child index and the hardening flag; in particular
two applications to the same triple yield byte-identical results. -/
theorem C4_deriveChild_deterministic (p q : ExtendedKey) (index : Nat) (hardened : Bool)
    (hpriv : p.privKey = q.privKey) (hpub : p.pubKey = q.pubKey)
    (hchain : p.chainCode = q.chainCode) :
    (deriveChild p index hardened).map (fun c => (c.privKey, c.pubKey, c.chainCode)) =
      (deriveChild q index hardened).map (fun c => (c.privKey, c.pubKey, c.chainCode)) := by
  unfold deriveChild
  rw [hpriv, hpub, hchain]
  rcases hb : (hardened || decide (2 ^ 31 ≤ index)) with _ | _ <;>
    rcases hk : q.privKey with _ | k <;>
    simp only [hb, hk, if_true, if_false, Bool.false_eq_true, ite_false, ite_true,
      Except.map]

/-- Witness for C4 at a concrete parent key and index. -/
theorem C4_deriveChild_deterministic_witness :
    exampleKey.privKey = exampleKey.privKey ∧ exampleKey.pubKey = exampleKey.pubKey ∧
    exampleKey.chainCode = exampleKey.chainCode ∧
    (deriveChild exampleKey 0 false).map (fun c => (c.privKey, c.pubKey, c.chainCode)) =
      (deriveChild exampleKey 0 false).map (fun c => (c.privKey, c.pubKey, c.chainCode)) :=
  ⟨rfl, rfl, rfl, C4_deriveChild_deterministic exampleKey exampleKey 0 false rfl rfl rfl⟩

/-- C6: every error raised inside the composed operations surfaces to the
caller unmodified. For every stage of recover (mnemonic decoding, network
parsing, script-type parsing, path parsing, path derivation, WIF export) and
every stage of createNew (network parsing, script-type parsing, entropy
generation, path derivation, WIF export): whenever the earlier stages succeed
and that stage fails with an error, the composed operation returns that
identical error — no internal retry, no swallowing, no downgrade to a default
result. -/
theorem C6_errors_surface_unmodified (m : Mnemonic) (pp : List Byte)
    (network scriptType path : String) (entropyBits : Nat) (rand : List Byte) (ε : Err) :
    (decode m = .error ε → recover m pp network scriptType path = .error ε) ∧
    (∀ e0, decode m = .ok e0 → parseNetwork network = .error ε →
      recover m pp network scriptType path = .error ε) ∧
    (∀ e0 net, decode m = .ok e0 → parseNetwork network = .ok net →
      parseScriptType scriptType = .error ε →
      recover m pp network scriptType path = .error ε) ∧
    (∀ e0 net st, decode m = .ok e0 → parseNetwork network = .ok net →
      parseScriptType scriptType = .ok st → parsePath path = .error ε →
      recover m pp network scriptType path = .error ε) ∧
    (∀ e0 net st p, decode m = .ok e0 → parseNetwork network = .ok net →
      parseScriptType scriptType = .ok st → parsePath path = .ok p →
      derivePath (masterKey (derive (mnemonicSentence m) pp) net) p = .error ε →
      recover m pp network scriptType path = .error ε) ∧
    (∀ e0 net st p key, decode m = .ok e0 → parseNetwork network = .ok net →
      parseScriptType scriptType = .ok st → parsePath path = .ok p →
      derivePath (masterKey (derive (mnemonicSentence m) pp) net) p = .ok key →
      toWIF key net = .error ε →
      recover m pp network scriptType path = .error ε) ∧
    (parseNetwork network = .error ε →
      createNew network scriptType entropyBits rand = .error ε) ∧
    (∀ net, parseNetwork network = .ok net → parseScriptType scriptType = .error ε →
      createNew network scriptType entropyBits rand = .error ε) ∧
    (∀ net st, parseNetwork network = .ok net → parseScriptType scriptType = .ok st →
      generate entropyBits rand = .error ε →
      createNew network scriptType entropyBits rand = .error ε) ∧
    (∀ net st entropy, parseNetwork network = .ok net →
      parseScriptType scriptType = .ok st → generate entropyBits rand = .ok entropy →
      derivePath (masterKey (derive (mnemonicSentence (encode entropy)) []) net)
        (defaultPath st net) = .error ε →
      createNew network scriptType entropyBits rand = .error ε) ∧
    (∀ net st entropy key, parseNetwork network = .ok net →
      parseScriptType scriptType = .ok st → generate entropyBits rand = .ok entropy →
      derivePath (masterKey (derive (mnemonicSentence (encode entropy)) []) net)
        (defaultPath st net) = .ok key →
      toWIF key net = .error ε →
      createNew network scriptType entropyBits rand = .error ε) := by
  refine ⟨?_, ?_, ?_, ?_, ?_, ?_, ?_, ?_, ?_, ?_, ?_⟩
  · intro hdec
    simp only [recover, hdec]
  · intro e0 hdec hnet
    simp only [recover, hdec, hnet]
  · intro e0 net hdec hnet hst
    simp only [recover, hdec, hnet, hst]
  · intro e0 net st hdec hnet hst hpath
    simp only [recover, hdec, hnet, hst, hpath]
  · intro e0 net st p hdec hnet hst hpath hder
    simp only [recover, hdec, hnet, hst, hpath, hder]
  · intro e0 net st p key hdec hnet hst hpath hder hwif
    simp only [recover, hdec, hnet, hst, hpath, hder, hwif]
  · intro hnet
    simp only [createNew, hnet]
  · intro net hnet hst
    simp only [createNew, hnet, hst]
  · intro net st hnet hst hgen
    simp only [createNew, hnet, hst, hgen]
  · intro net st entropy hnet hst hgen hder
    simp only [createNew, hnet, hst, hgen, hder]
  · intro net st entropy key hnet hst hgen hder hwif
    simp only [createNew, hnet, hst, hgen, hder, hwif]

/-- Witness for C6: concrete failing inputs for five distinct stages — an
invalid one-word mnemonic propagates InvalidMnemonic, a valid mnemonic with
network "foo" propagates UnsupportedNetwork, with script type "p2tr" it
propagates InvalidParameter, with path "m/q" it propagates InvalidPath, and
createNew with 7 entropy bits propagates InvalidParameter. -/
theorem C6_errors_surface_unmodified_witness :
    (decode ([0] : Mnemonic) = .error .InvalidMnemonic ∧
      recover [0] [] "testnet" "native-segwit" "m/0" = .error .InvalidMnemonic) ∧
    (decode (encode (List.replicate 16 (0 : Byte))) = .ok (List.replicate 16 (0 : Byte)) ∧
      parseNetwork "foo" = .error .UnsupportedNetwork ∧
      recover (encode (List.replicate 16 (0 : Byte))) [] "foo" "native-segwit" "m/0" =
        .error .UnsupportedNetwork) ∧
    (parseScriptType "p2tr" = .error .InvalidParameter ∧
      recover (encode (List.replicate 16 (0 : Byte))) [] "testnet" "p2tr" "m/0" =
        .error .InvalidParameter) ∧
    (parsePath "m/q" = .error .InvalidPath ∧
      recover (encode (List.replicate 16 (0 : Byte))) [] "testnet" "native-segwit" "m/q" =
        .error .InvalidPath) ∧
    (generate 7 [] = .error .InvalidParameter ∧
      createNew "testnet" "native-segwit" 7 [] = .error .InvalidParameter) := by
  have hdec : decode (encode (List.replicate 16 (0 : Byte))) =
      .ok (List.replicate 16 (0 : Byte)) :=
    decode_encode_aux _ (by decide) (by decide) (by decide) (by decide) (by decide)
  refine ⟨⟨by rfl, ?_⟩, ⟨hdec, by rfl, ?_⟩, ⟨by rfl, ?_⟩, ⟨by rfl, ?_⟩, ⟨by rfl, ?_⟩⟩
  · exact (C6_errors_surface_unmodified [0] [] "testnet" "native-segwit" "m/0" 128 []
      .InvalidMnemonic).1 (by rfl)
  · exact (C6_errors_surface_unmodified (encode (List.replicate 16 (0 : Byte))) [] "foo"
      "native-segwit" "m/0" 128 [] .UnsupportedNetwork).2.1 _ hdec (by rfl)
  · exact (C6_errors_surface_unmodified (encode (List.replicate 16 (0 : Byte))) []
      "testnet" "p2tr" "m/0" 128 [] .InvalidParameter).2.2.1 _ _ hdec (by rfl) (by rfl)
  · exact (C6_errors_surface_unmodified (encode (List.replicate 16 (0 : Byte))) []
      "testnet" "native-segwit" "m/q" 128 [] .InvalidPath).2.2.2.1 _ _ _ hdec (by rfl)
      (by rfl) (by rfl)
  · exact (C6_errors_surface_unmodified [] [] "testnet" "native-segwit" "" 7 []
      .InvalidParameter).2.2.2.2.2.2.2.2.1 _ _ (by rfl) (by rfl) (by rfl)

end Wallet

namespace Script

theorem expectCode_cons (n : Nat) (c : Char) (cs : List Char) (h : c.toNat = n) :
    expectCode n (c :: cs) = some cs := by
  simp [expectCode, h]

theorem skipWs_cons (c : Char) (cs : List Char) (h : c.toNat ≠ 32) :
    skipWs (c :: cs) = c :: cs := by
  simp [skipWs, List.dropWhile_cons, h]

theorem skipWs_cons_space (c : Char) (cs : List Char) (h : c.toNat = 32) :
    skipWs (c :: cs) = skipWs cs := by
  simp [skipWs, List.dropWhile_cons, h]

theorem scanStr_clean (s : List Char) (q : Char) (rest : List Char)
    (hq : q.toNat = 34) (hs : ∀ c ∈ s, jsonSafe c) :
    scanStr (s ++ q :: rest) = some (s, rest) := by
  induction s with
  | nil => simp [scanStr, hq]
  | cons c s ih =>
    have hc := hs c (List.mem_cons_self c s)
    rw [List.cons_append, scanStr]
    rw [if_neg hc.1, if_neg hc.2, ih (fun x hx => hs x (List.mem_cons_of_mem c hx))]
    rfl

theorem parsePair_shape (k A rest : List Char)
    (hk : ∀ c ∈ k, jsonSafe c) (hA : ∀ c ∈ A, jsonSafe c) :
    parsePair (Char.ofNat 34 :: (k ++ (Char.ofNat 34 :: Char.ofNat 58 :: Char.ofNat 32 ::
      Char.ofNat 34 :: (A ++ (Char.ofNat 34 :: rest))))) = some ((k, A), rest) := by
  unfold parsePair
  rw [expectCode_cons _ _ _ (by decide)]
  rw [Option.some_bind]
  rw [scanStr_clean k _ _ (by decide) hk, Option.some_bind]
  rw [expectCode_cons _ _ _ (by decide), Option.some_bind]
  rw [expectCode_cons _ _ _ (by decide), Option.some_bind]
  rw [expectCode_cons _ _ _ (by decide), Option.some_bind]
  rw [scanStr_clean A _ _ (by decide) hA]
  rfl

/-- The content the script writes parses as a flat JSON object whose pairs
are exactly address and privateKey with the two injected values. -/
theorem parse_walletJson (a w : String)
    (ha : ∀ c ∈ a.data, jsonSafe c) (hw : ∀ c ∈ w.data, jsonSafe c) :
    parseObj (walletJson a w).data = some [("address", a), ("privateKey", w)] := by
  obtain ⟨A⟩ := a
  obtain ⟨W⟩ := w
  have hflat : (walletJson ⟨A⟩ ⟨W⟩).data =
      "\x7b\"address\": \"".data ++ A ++ "\", \"privateKey\": \"".data ++ W ++
        "\"\x7d".data := rfl
  have hLit1 : "\x7b\"address\": \"".data =
      Char.ofNat 123 :: Char.ofNat 34 ::
        (addrKey ++ [Char.ofNat 34, Char.ofNat 58, Char.ofNat 32, Char.ofNat 34]) := by
    decide
  have hLit2 : "\", \"privateKey\": \"".data =
      Char.ofNat 34 :: Char.ofNat 44 :: Char.ofNat 32 :: Char.ofNat 34 ::
        (privKeyKey ++ [Char.ofNat 34, Char.ofNat 58, Char.ofNat 32, Char.ofNat 34]) := by
    decide
  have hLit3 : "\"\x7d".data = [Char.ofNat 34, Char.ofNat 125] := by decide
  rw [hflat, hLit1, hLit2, hLit3]
  simp only [List.append_assoc, List.cons_append, List.nil_append]
  unfold parseObj
  rw [skipWs_cons _ _ (by decide), expectCode_cons _ _ _ (by decide), Option.some_bind]
  simp only [List.length_cons]
  simp only [parsePairs]
  rw [skipWs_cons _ _ (by decide)]
  rw [parsePair_shape addrKey A _ (by decide) (fun c hc => ha c hc), Option.some_bind]
  dsimp only
  rw [skipWs_cons _ _ (by decide)]
  dsimp only
  rw [if_pos (by decide)]
  rw [skipWs_cons_space _ _ (by decide), skipWs_cons _ _ (by decide)]
  rw [parsePair_shape privKeyKey W _ (by decide) (fun c hc => hw c hc), Option.some_bind]
  dsimp only
  rw [skipWs_cons _ _ (by decide)]
  dsimp only
  rw [if_neg (by decide)]
  dsimp only [Option.map]
  rw [Option.some_bind]
  dsimp only
  rw [skipWs_cons _ _ (by decide), expectCode_cons _ _ _ (by decide), Option.some_bind]
  rfl

/-- C9: every wallet created by create_wallet uses the fixed name
richarddushime, witness type segwit, and network testnet; the run takes no
caller input that could select a different name, network, or script type, so
every run creates a testnet segwit wallet. -/
theorem C9_fixed_wallet_parameters (mnemonic : List Nat) (key : KeyInfo) :
    (create_wallet mnemonic key).walletCreate.name = "richarddushime" ∧
    (create_wallet mnemonic key).walletCreate.witness_type = "segwit" ∧
    (create_wallet mnemonic key).walletCreate.network = "testnet" :=
  ⟨rfl, rfl, rfl⟩

/-- C8: every call writes exactly one file, always named py-wallet.json,
opened in write mode, so that whatever the prior file-system state its
previous content is replaced by the new record; the address and privateKey
values written are built from exactly the address and WIF of the key obtained
from the wallet — the same two values printed to standard output. -/
theorem C8_single_overwrite (mnemonic : List Nat) (key : KeyInfo)
    (fs : String → Option String) :
    (create_wallet mnemonic key).writes =
      [{ name := "py-wallet.json", mode := "w",
         content := walletJson key.address key.wif }] ∧
    applyWrites fs (create_wallet mnemonic key).writes "py-wallet.json" =
      some (walletJson key.address key.wif) ∧
    (create_wallet mnemonic key).stdout =
      ["| Public Address | " ++ key.address ++ " |",
       "| Private Key     | " ++ key.wif ++ " |"] := by
  refine ⟨rfl, ?_, rfl⟩
  simp [create_wallet, applyWrites, applyWrite]

/-- C5: the persisted record contains exactly an address field holding the
address string and a privateKey field holding the WIF of the same derived
key: parsing the single written file yields exactly those two pairs. -/
theorem C5_persistence_record (mnemonic : List Nat) (key : KeyInfo)
    (ha : ∀ c ∈ key.address.data, jsonSafe c) (hw : ∀ c ∈ key.wif.data, jsonSafe c) :
    (create_wallet mnemonic key).writes.map (fun fw => parseObj fw.content.data) =
      [some [("address", key.address), ("privateKey", key.wif)]] := by
  simp only [create_wallet, List.map]
  rw [parse_walletJson key.address key.wif ha hw]

/-- Witness for C5 at a concrete key. -/
theorem C5_persistence_record_witness :
    (∀ c ∈ ("tb1qexample" : String).data, jsonSafe c) ∧
    (∀ c ∈ ("cWifExample" : String).data, jsonSafe c) ∧
    (create_wallet [] ⟨"tb1qexample", "cWifExample"⟩).writes.map
        (fun fw => parseObj fw.content.data) =
      [some [("address", "tb1qexample"), ("privateKey", "cWifExample")]] :=
  ⟨by decide, by decide,
    C5_persistence_record [] ⟨"tb1qexample", "cWifExample"⟩ (by decide) (by decide)⟩

/-- C10: the written content is built by raw string concatenation with no
escaping, and under the precondition that the address and WIF contain no
double quote and no backslash it is a well-formed flat JSON object whose keys
are exactly address and privateKey. -/
theorem C10_content_wellformed_json (a w : String)
    (ha : ∀ c ∈ a.data, jsonSafe c) (hw : ∀ c ∈ w.data, jsonSafe c) :
    walletJson a w =
      "\x7b\"address\": \"" ++ a ++ "\", \"privateKey\": \"" ++ w ++ "\"\x7d" ∧
    (parseObj (walletJson a w).data).map (fun kvs => kvs.map Prod.fst) =
      some ["address", "privateKey"] := by
  refine ⟨rfl, ?_⟩
  rw [parse_walletJson a w ha hw]
  rfl

/-- Witness for C10 at concrete strings. -/
theorem C10_content_wellformed_json_witness :
    (∀ c ∈ ("tb1qaddr" : String).data, jsonSafe c) ∧
    (∀ c ∈ ("cWifKey" : String).data, jsonSafe c) ∧
    (walletJson "tb1qaddr" "cWifKey" =
      "\x7b\"address\": \"" ++ "tb1qaddr" ++ "\", \"privateKey\": \"" ++ "cWifKey" ++
        "\"\x7d" ∧
     (parseObj (walletJson "tb1qaddr" "cWifKey").data).map (fun kvs => kvs.map Prod.fst) =
       some ["address", "privateKey"]) :=
  ⟨by decide, by decide,
    C10_content_wellformed_json "tb1qaddr" "cWifKey" (by decide) (by decide)⟩

/-- Counterexample to C3 as stated: at a concrete run the script persists the
WIF-encoded private key under the privateKey field of py-wallet.json, so the
mnemonic is not the only artifact intended for storage and a private key is
persisted. -/
theorem C3_counterexample :
    (create_wallet [] ⟨"tb1qexampleaddr", "cWifPrivateKey"⟩).writes.map
        (fun fw => (fw.name, parseObj fw.content.data)) =
      [("py-wallet.json",
        some [("address", "tb1qexampleaddr"), ("privateKey", "cWifPrivateKey")])] := by
  simp only [create_wallet, List.map]
  rw [parse_walletJson "tb1qexampleaddr" "cWifPrivateKey" (by decide) (by decide)]

/-- C3 amended: no seed and no extended key is ever persisted — the single
record the script persists holds exactly the address and the WIF-encoded
private key; seeds and extended keys exist only transiently in memory. -/
theorem C3_no_seed_or_extended_key_persisted (mnemonic : List Nat) (key : KeyInfo)
    (ha : ∀ c ∈ key.address.data, jsonSafe c) (hw : ∀ c ∈ key.wif.data, jsonSafe c) :
    ∃ fw, (create_wallet mnemonic key).writes = [fw] ∧
      (parseObj fw.content.data).map (fun kvs => kvs.map Prod.fst) =
        some ["address", "privateKey"] := by
  refine ⟨_, rfl, ?_⟩
  rw [parse_walletJson key.address key.wif ha hw]
  rfl

/-- Witness for the amended C3 at a concrete key. -/
theorem C3_no_seed_or_extended_key_persisted_witness :
    (∀ c ∈ ("tb1qex" : String).data, jsonSafe c) ∧
    (∀ c ∈ ("cWifEx" : String).data, jsonSafe c) ∧
    (∃ fw, (create_wallet [0] ⟨"tb1qex", "cWifEx"⟩).writes = [fw] ∧
      (parseObj fw.content.data).map (fun kvs => kvs.map Prod.fst) =
        some ["address", "privateKey"]) :=
  ⟨by decide, by decide,
    C3_no_seed_or_extended_key_persisted [0] ⟨"tb1qex", "cWifEx"⟩ (by decide) (by decide)⟩

/-- Counterexample to C7 as stated: two runs with entirely different caller
inputs both create the wallet under the identifier richarddushime — the
identifier is fixed inside the program, not supplied by the caller. -/
theorem C7_counterexample :
    (create_wallet [0] ⟨"a1", "w1"⟩).walletCreate.name = "richarddushime" ∧
    (create_wallet [1, 2] ⟨"a2", "w2"⟩).walletCreate.name = "richarddushime" ∧
    (([0] : List Nat), (⟨"a1", "w1"⟩ : KeyInfo)) ≠ ([1, 2], ⟨"a2", "w2"⟩) :=
  ⟨rfl, rfl, by decide⟩

/-- C7 amended: the wallet identifier is the process-wide constant
richarddushime hardcoded in the script; no caller input selects it (the
generalization to an explicit parameter is a design note of the spec, not a
property of the program). -/
theorem C7_fixed_wallet_identifier (mnemonic : List Nat) (key : KeyInfo) :
    (create_wallet mnemonic key).walletCreate.name = "richarddushime" := rfl

end Script
